import Mathlib

/-
Verification of `src/batch_video_copy.py`: a single-pass script that walks a
source directory tree, matches filenames against a keyword and a set of video
extensions (both case-insensitively), and moves every match into a flat
destination directory, printing one log line per move and a final completion
line.

The embedding below follows the source line by line:
  * string predicates mirror line 22
    (`search_keyword.lower() in file.lower() and any(file.lower().endswith(ext) ...)`),
  * `movesOf` mirrors the nested `os.walk` loop of lines 20-28,
  * `programTrace` is the sequence of observable effects the script issues
    (the `os.makedirs` call of line 11, then each `shutil.move` with its
    `print`, then the final `print` of line 30),
  * `execEffects` interprets a trace against a filesystem state with a fault
    oracle, modelling Python's unhandled-exception semantics (no try/except
    anywhere in the script),
  * `makedirs` models `os.makedirs(path, exist_ok=...)` on an abstract state,
  * `FSNode`/`osWalk` model `os.walk` (top-down, default `onerror=None`).
-/

namespace BatchVideoCopy

/-- `os.path.join a b` for the POSIX-style paths this script builds. -/
def joinPath (a b : String) : String := a ++ "/" ++ b

/-- Python `s.lower()`, as the character list of `s` lower-cased
(`Char.toLower` is the same ASCII mapping). -/
def strLower (s : String) : List Char := s.data.map Char.toLower

/-- Python substring test `sub in s` on character lists. -/
def isInfixB (sub s : List Char) : Bool := s.tails.any (fun t => sub.isPrefixOf t)

/-- Line 5: the configured source directory. -/
def source_dir : String := "path/to/your/subdirectory"

/-- Line 8: `os.path.expanduser("~/Desktop/Filtered_Files")`, with the home
directory as a parameter. -/
def destination_dir (home : String) : String := home ++ "/Desktop/Filtered_Files"

/-- Line 14: the recognized video extensions. -/
def file_extensions : List String := [".mp4", ".avi", ".mov", ".mkv", ".flv", ".wmv"]

/-- Line 17: the keyword searched for in filenames. -/
def search_keyword : String := "play"

/-- Line 22: `keyword.lower() in file.lower() and
any(file.lower().endswith(ext) for ext in extensions)`. -/
def matchesFile (keyword : String) (exts : List String) (file : String) : Bool :=
  isInfixB (strLower keyword) (strLower file)
    && exts.any (fun ext => ext.data.isSuffixOf (strLower file))

/-- One performed move: the walk entry it came from and the two full paths
computed on lines 23-24. -/
structure Move where
  root : String
  file : String
  src : String
  dst : String
deriving DecidableEq, Repr

/-- Lines 23-24: `source_path = os.path.join(root, file)`,
`destination_path = os.path.join(destination_dir, file)`. -/
def mkMove (home root file : String) : Move :=
  { root := root, file := file
    src := joinPath root file
    dst := joinPath (destination_dir home) file }

/-- The body of the inner loop (lines 22-24): a move is produced exactly when
the filename matches. -/
def processFile (home root file : String) : Option Move :=
  if matchesFile search_keyword file_extensions file then some (mkMove home root file)
  else none

/-- Lines 20-27: the moves performed over a walk listing (the list of
`(root, files)` pairs `os.walk` yields), in traversal order. -/
def movesOf (home : String) (walk : List (String × List String)) : List Move :=
  walk.flatMap (fun rf => rf.2.filterMap (processFile home rf.1))

/-- The observable filesystem/console effects of the script. -/
inductive Effect where
  | makedirs (path : String) (exist_ok : Bool)
  | move (src dst : String)
  | print (line : String)
deriving DecidableEq, Repr

/-- Line 28: the log line printed after each move. -/
def moveLine (m : Move) : String := "Moved: " ++ m.src ++ " -> " ++ m.dst

/-- The whole run as an effect sequence: line 11's `os.makedirs`, then for
each matched file its `shutil.move` (line 27) followed by its `print`
(line 28), then line 30's final `print`. -/
def programTrace (home : String) (walk : List (String × List String)) : List Effect :=
  Effect.makedirs (destination_dir home) true ::
    ((movesOf home walk).flatMap (fun m => [Effect.move m.src m.dst, Effect.print (moveLine m)])
      ++ [Effect.print "Transfer complete."])

/-- The line printed by an effect, if any. -/
def printedLine : Effect → Option String
  | .print l => some l
  | _ => none

/-- The console output of a fault-free run. -/
def outputOf (home : String) (walk : List (String × List String)) : List String :=
  (programTrace home walk).filterMap printedLine

/-- Effect action on a filesystem state (the list of current file paths):
a move renames the source path to the destination path; directory creation
and printing leave the files unchanged. -/
def applyEffect (fs : List String) : Effect → List String
  | .move src dst => fs.map (fun p => if p = src then dst else p)
  | _ => fs

/-- Apply a whole effect sequence. -/
def applyEffects (es : List Effect) (fs : List String) : List String :=
  es.foldl applyEffect fs

/-- Run a trace against a fault oracle: each effect either succeeds and is
applied, or raises, in which case the run stops at once (the script installs
no exception handler). Returns the final state and whether the run completed. -/
def execEffects (fails : Effect → Bool) (fs : List String) : List Effect → List String × Bool
  | [] => (fs, true)
  | e :: rest => if fails e then (fs, false) else execEffects fails (applyEffect fs e) rest

/-- The filesystem after a fault-free run. -/
def finalFS (home : String) (walk : List (String × List String)) (fs : List String) :
    List String :=
  applyEffects (programTrace home walk) fs

/-- All nonempty initial segments of a component path: the ancestors a
recursive directory creation walks through, innermost last. -/
def initSegs (comps : List String) : List (List String) :=
  (List.range comps.length).map (fun i => comps.take (i + 1))

/-- Add a directory to the state if it is not already present. -/
def insertDir (st : List (List String)) (q : List String) : List (List String) :=
  if q ∈ st then st else st ++ [q]

/-- Line 11's primitive, `os.makedirs(path, exist_ok)`, modelled on an
abstract state: the list of existing directories, each as its component
path. If the target already exists it raises `FileExistsError` unless
`exist_ok` is true; otherwise it creates every missing ancestor and the
target itself. -/
def makedirs (st : List (List String)) (path : List String) (exist_ok : Bool) :
    Except Unit (List (List String)) :=
  if path ∈ st then
    if exist_ok then Except.ok st else Except.error ()
  else Except.ok ((initSegs path).foldl insertDir st)

/-- A filesystem tree node for modelling `os.walk`: a regular file, or a
directory whose entries may or may not be listable (an unlistable directory
stands for one whose `scandir` raises, e.g. permission denied). -/
inductive FSNode where
  | file (name : String)
  | dir (name : String) (listable : Bool) (children : List FSNode)
deriving Repr

/-- The entry name of a node. -/
def FSNode.name : FSNode → String
  | .file n => n
  | .dir n _ _ => n

/-- The names of the regular files directly inside a child list. -/
def fileNames : List FSNode → List String
  | [] => []
  | .file n :: rest => n :: fileNames rest
  | .dir _ _ _ :: rest => fileNames rest

/-- `os.walk` (top-down, default `onerror=None`) on a node at a given path:
walking a regular file yields nothing; walking a directory whose listing
fails yields nothing (the `OSError` is swallowed because `onerror` is
`None`); otherwise it yields `(root, files)` and then recurses into each
child (file children contribute nothing). -/
def osWalk (root : String) : FSNode → List (String × List String)
  | .file _ => []
  | .dir _ listable children =>
    if listable then
      (root, fileNames children) ::
        (children.attach.map (fun c => osWalk (joinPath root c.1.name) c.1)).flatten
    else []
termination_by n => sizeOf n
decreasing_by
  have h := List.sizeOf_lt_of_mem c.2
  simp only [FSNode.dir.sizeOf_spec]
  omega

/-- `os.walk(path)` where the path may not denote an existing node: a
nonexistent path yields nothing (the `FileNotFoundError` from `scandir` is
swallowed because `onerror` is `None`). -/
def osWalkTop (root : String) : Option FSNode → List (String × List String)
  | none => []
  | some n => osWalk root n

/-! ### Helper lemmas -/

theorem processFile_eq_some {home root file : String} {m : Move} :
    processFile home root file = some m ↔
      matchesFile search_keyword file_extensions file = true ∧ m = mkMove home root file := by
  by_cases h : matchesFile search_keyword file_extensions file = true <;>
    simp [processFile, h, eq_comm]

theorem mem_movesOf_iff {home r f : String} {walk : List (String × List String)} :
    mkMove home r f ∈ movesOf home walk ↔
      (matchesFile search_keyword file_extensions f = true
        ∧ ∃ files, (r, files) ∈ walk ∧ f ∈ files) := by
  unfold movesOf
  simp only [List.mem_flatMap, List.mem_filterMap]
  constructor
  · rintro ⟨⟨r', files⟩, hrf, f', hf', hpf⟩
    rw [processFile_eq_some] at hpf
    obtain ⟨hm, heq⟩ := hpf
    have hr : r' = r := by
      have := congrArg Move.root heq; simpa [mkMove] using this.symm
    have hf : f' = f := by
      have := congrArg Move.file heq; simpa [mkMove] using this.symm
    subst hr; subst hf
    exact ⟨hm, files, hrf, hf'⟩
  · rintro ⟨hm, files, hrf, hf⟩
    exact ⟨(r, files), hrf, f, hf, processFile_eq_some.mpr ⟨hm, rfl⟩⟩

theorem shape_of_mem_movesOf {home : String} {walk : List (String × List String)}
    {m : Move} (h : m ∈ movesOf home walk) :
    m = mkMove home m.root m.file
    ∧ matchesFile search_keyword file_extensions m.file = true
    ∧ ∃ files, (m.root, files) ∈ walk ∧ m.file ∈ files := by
  unfold movesOf at h
  simp only [List.mem_flatMap, List.mem_filterMap] at h
  obtain ⟨⟨r', files⟩, hrf, f', hf', hpf⟩ := h
  rw [processFile_eq_some] at hpf
  obtain ⟨hm, heq⟩ := hpf
  subst heq
  exact ⟨rfl, hm, files, hrf, hf'⟩

theorem move_src_of_mem_trace {home s d : String} {walk : List (String × List String)}
    (h : Effect.move s d ∈ programTrace home walk) :
    ∃ m ∈ movesOf home walk, s = m.src ∧ d = m.dst := by
  simp only [programTrace, List.mem_cons, List.mem_append, List.mem_flatMap,
    List.not_mem_nil, or_false] at h
  rcases h with h | ⟨m, hm, h | h⟩ | h
  · cases h
  · obtain ⟨hs, hd⟩ := Effect.move.inj h
    exact ⟨m, hm, hs, hd⟩
  · cases h
  · cases h

theorem append_slash_inj :
    ∀ (xs1 ys1 xs2 ys2 : List Char),
      xs1 ++ '/' :: ys1 = xs2 ++ '/' :: ys2 → '/' ∉ xs1 → '/' ∉ xs2 →
        xs1 = xs2 ∧ ys1 = ys2 := by
  intro xs1
  induction xs1 with
  | nil =>
    intro ys1 xs2 ys2 h h1 h2
    cases xs2 with
    | nil => simpa using h
    | cons c t =>
      simp only [List.nil_append, List.cons_append, List.cons.injEq] at h
      exact absurd (h.1 ▸ List.mem_cons_self c t) h2
  | cons c t ih =>
    intro ys1 xs2 ys2 h h1 h2
    cases xs2 with
    | nil =>
      simp only [List.cons_append, List.nil_append, List.cons.injEq] at h
      exact absurd (h.1 ▸ List.mem_cons_self c t) h1
    | cons c' t' =>
      simp only [List.cons_append, List.cons.injEq] at h
      have h1' : '/' ∉ t := fun hm => h1 (List.mem_cons_of_mem c hm)
      have h2' : '/' ∉ t' := fun hm => h2 (List.mem_cons_of_mem c' hm)
      obtain ⟨ht, hy⟩ := ih ys1 t' ys2 h.2 h1' h2'
      exact ⟨by rw [h.1, ht], hy⟩

theorem joinPath_data (a b : String) : (joinPath a b).data = a.data ++ '/' :: b.data := by
  simp [joinPath]

theorem joinPath_inj_file {r1 f1 r2 f2 : String} (h : joinPath r1 f1 = joinPath r2 f2)
    (h1 : ('/' : Char) ∉ f1.data) (h2 : ('/' : Char) ∉ f2.data) : f1 = f2 := by
  have hd : r1.data ++ '/' :: f1.data = r2.data ++ '/' :: f2.data := by
    have := congrArg String.data h
    rwa [joinPath_data, joinPath_data] at this
  have hrev : f1.data.reverse ++ '/' :: r1.data.reverse
      = f2.data.reverse ++ '/' :: r2.data.reverse := by
    have := congrArg List.reverse hd
    simpa [List.reverse_append] using this
  have hm1 : ('/' : Char) ∉ f1.data.reverse := by simpa using h1
  have hm2 : ('/' : Char) ∉ f2.data.reverse := by simpa using h2
  have hr := (append_slash_inj _ _ _ _ hrev hm1 hm2).1
  have hdata : f1.data = f2.data := by
    have := congrArg List.reverse hr
    simpa using this
  cases f1; cases f2; exact congrArg String.mk hdata

theorem mem_applyEffects_of_not_src {p : String} :
    ∀ (es : List Effect) (fs : List String), p ∈ fs →
      (∀ e ∈ es, ∀ s d, e = Effect.move s d → s ≠ p) →
      p ∈ applyEffects es fs := by
  intro es
  induction es with
  | nil => intro fs hp _; simpa [applyEffects] using hp
  | cons e rest ih =>
    intro fs hp hcond
    have hstep : p ∈ applyEffect fs e := by
      cases e with
      | move s d =>
        have hne : s ≠ p := hcond _ (List.mem_cons_self _ _) s d rfl
        simp only [applyEffect]
        exact List.mem_map.mpr ⟨p, hp, if_neg (fun h => hne h.symm)⟩
      | makedirs a b => simpa [applyEffect] using hp
      | print l => simpa [applyEffect] using hp
    have hcond' : ∀ e' ∈ rest, ∀ s d, e' = Effect.move s d → s ≠ p :=
      fun e' he' => hcond e' (List.mem_cons_of_mem e he')
    simpa [applyEffects] using ih (applyEffect fs e) hstep hcond'

theorem execEffects_eq (fails : Effect → Bool) :
    ∀ (es : List Effect) (fs : List String),
      execEffects fails fs es
        = (applyEffects (es.takeWhile (fun e => !fails e)) fs,
            es.all (fun e => !fails e)) := by
  intro es
  induction es with
  | nil => intro fs; simp [execEffects, applyEffects]
  | cons e rest ih =>
    intro fs
    by_cases hf : fails e = true
    · simp [execEffects, hf, List.takeWhile_cons, applyEffects]
    · have hf' : fails e = false := by simpa using hf
      simp [execEffects, hf', List.takeWhile_cons, applyEffects, ih]

theorem filterMap_printed (L : List Move) :
    (L.flatMap
        (fun m => [Effect.move m.src m.dst, Effect.print (moveLine m)])).filterMap printedLine
      = L.map moveLine := by
  induction L with
  | nil => simp
  | cons m t ih => simp [printedLine, ih]

theorem mem_foldl_insertDir_left {q : List String} :
    ∀ (qs : List (List String)) (st : List (List String)),
      q ∈ st → q ∈ qs.foldl insertDir st := by
  intro qs
  induction qs with
  | nil => intro st h; simpa using h
  | cons a t ih =>
    intro st h
    refine ih (insertDir st a) ?_
    unfold insertDir
    split
    · exact h
    · exact List.mem_append_left _ h

theorem mem_foldl_insertDir {q : List String} :
    ∀ (qs : List (List String)) (st : List (List String)),
      q ∈ qs → q ∈ qs.foldl insertDir st := by
  intro qs
  induction qs with
  | nil => intro st h; cases h
  | cons a t ih =>
    intro st h
    rcases List.mem_cons.mp h with rfl | h
    · refine mem_foldl_insertDir_left t (insertDir st q) ?_
      unfold insertDir
      split
      · assumption
      · exact List.mem_append_right _ (List.mem_singleton.mpr rfl)
    · exact ih (insertDir st a) h

theorem nodup_insertDir {st : List (List String)} {q : List String} (h : st.Nodup) :
    (insertDir st q).Nodup := by
  unfold insertDir
  split
  · exact h
  · refine List.nodup_append.mpr ⟨h, List.nodup_singleton q, ?_⟩
    intro a ha hq
    rw [List.mem_singleton.mp hq] at ha
    exact absurd ha (by assumption)

theorem nodup_foldl_insertDir :
    ∀ (qs : List (List String)) (st : List (List String)),
      st.Nodup → (qs.foldl insertDir st).Nodup := by
  intro qs
  induction qs with
  | nil => intro st h; simpa using h
  | cons a t ih => intro st h; exact ih (insertDir st a) (nodup_insertDir h)

theorem count_eq_one_of_nodup_mem {α : Type} [BEq α] [LawfulBEq α] {a : α} :
    ∀ {l : List α}, l.Nodup → a ∈ l → l.count a = 1 := by
  intro l
  induction l with
  | nil => intro _ hm; cases hm
  | cons b t ih =>
    intro hnd hm
    rcases List.mem_cons.mp hm with rfl | hm2
    · have hnot : a ∉ t := (List.nodup_cons.mp hnd).1
      rw [List.count_cons_self, List.count_eq_zero.mpr hnot]
    · have hne : a ≠ b := fun h => (List.nodup_cons.mp hnd).1 (h ▸ hm2)
      rw [List.count_cons_of_ne hne]
      exact ih (List.nodup_cons.mp hnd).2 hm2

theorem path_mem_initSegs {path : List String} (h : path ≠ []) : path ∈ initSegs path := by
  have hlen : 0 < path.length := List.length_pos.mpr h
  refine List.mem_map.mpr ⟨path.length - 1, List.mem_range.mpr (by omega), ?_⟩
  have : path.length - 1 + 1 = path.length := by omega
  rw [this, List.take_length]

/-! ### Claims -/

/-- C1: a file under the source tree is moved (appears in the move list,
with exactly the source and destination paths of lines 23-24) if and only
if the lower-cased keyword occurs in its lower-cased name and the
lower-cased name ends with one of the extensions; a file failing the
predicate stays at its original path after the whole run (for walks whose
filenames contain no path separator, as `os.walk` yields). -/
theorem moved_iff_match (home r f : String) (files : List String)
    (walk : List (String × List String))
    (h1 : (r, files) ∈ walk) (h2 : f ∈ files) :
    (mkMove home r f ∈ movesOf home walk ↔
      matchesFile search_keyword file_extensions f = true)
    ∧ (matchesFile search_keyword file_extensions f = false →
        (∀ p ∈ walk, ∀ g ∈ p.2, ('/' : Char) ∉ g.data) →
        ∀ fs, joinPath r f ∈ fs → joinPath r f ∈ finalFS home walk fs) := by
  constructor
  · rw [mem_movesOf_iff]
    exact ⟨fun h => h.1, fun hm => ⟨hm, files, h1, h2⟩⟩
  · intro hnm hgood fs hp
    refine mem_applyEffects_of_not_src _ fs hp ?_
    intro e he s d hesd
    subst hesd
    intro heq
    obtain ⟨m, hm, hs, _⟩ := move_src_of_mem_trace he
    obtain ⟨hshape, hmatch, files2, hw2, hf2⟩ := shape_of_mem_movesOf hm
    have hsrc : m.src = joinPath m.root m.file := congrArg Move.src hshape
    have hjoin : joinPath m.root m.file = joinPath r f := by rw [← hsrc, ← hs, heq]
    have hff : ('/' : Char) ∉ f.data := hgood (r, files) h1 f h2
    have hmf : ('/' : Char) ∉ m.file.data := hgood (m.root, files2) hw2 m.file hf2
    have hfe : m.file = f := joinPath_inj_file hjoin hmf hff
    rw [hfe, hnm] at hmatch
    exact Bool.noConfusion hmatch

/-- Witness for C1: `a/clip_play.mp4` is moved, `a/notes.txt` stays put. -/
theorem moved_iff_match_witness :
    mkMove "h" "a" "clip_play.mp4" ∈ movesOf "h" [("a", ["clip_play.mp4", "notes.txt"])]
    ∧ "a/notes.txt" ∈ finalFS "h" [("a", ["clip_play.mp4", "notes.txt"])] ["a/notes.txt"] := by
  constructor
  · exact (moved_iff_match "h" "a" "clip_play.mp4" ["clip_play.mp4", "notes.txt"]
      [("a", ["clip_play.mp4", "notes.txt"])] (by decide) (by decide)).1.mpr (by decide)
  · exact (moved_iff_match "h" "a" "notes.txt" ["clip_play.mp4", "notes.txt"]
      [("a", ["clip_play.mp4", "notes.txt"])] (by decide) (by decide)).2
      (by decide) (by decide) ["a/notes.txt"] (by decide)

/-- C2: with no handler in the script, a fault at any effect stops the run
there: exactly the maximal fault-free prefix of the effect trace is applied
(partial completion, not atomic), the run flag records whether every effect
succeeded, and any file that is not the source of a move in that prefix is
still present at its original path. -/
theorem fault_partial_completion (home : String) (walk : List (String × List String))
    (fails : Effect → Bool) (fs : List String) :
    execEffects fails fs (programTrace home walk)
      = (applyEffects ((programTrace home walk).takeWhile (fun e => !fails e)) fs,
          (programTrace home walk).all (fun e => !fails e))
    ∧ ∀ p ∈ fs,
        (∀ e ∈ (programTrace home walk).takeWhile (fun e => !fails e),
          ∀ s d, e = Effect.move s d → s ≠ p) →
        p ∈ (execEffects fails fs (programTrace home walk)).1 := by
  refine ⟨execEffects_eq fails _ fs, ?_⟩
  intro p hp hcond
  rw [execEffects_eq]
  exact mem_applyEffects_of_not_src _ fs hp hcond

/-- Witness for C2: when the first move itself faults, the matched file is
still at its original path afterwards. -/
theorem fault_partial_completion_witness :
    "a/clip_play.mp4"
      ∈ (execEffects (fun e => match e with | Effect.move _ _ => true | _ => false)
          ["a/clip_play.mp4"] (programTrace "h" [("a", ["clip_play.mp4"])])).1 := by
  refine (fault_partial_completion "h" [("a", ["clip_play.mp4"])]
      (fun e => match e with | Effect.move _ _ => true | _ => false)
      ["a/clip_play.mp4"]).2 "a/clip_play.mp4" (by decide) ?_
  intro e he s d hesd
  have htw : (programTrace "h" [("a", ["clip_play.mp4"])]).takeWhile
      (fun e => !(match e with | Effect.move _ _ => true | _ => false))
      = [Effect.makedirs "h/Desktop/Filtered_Files" true] := by decide
  rw [htw] at he
  rw [List.mem_singleton.mp he] at hesd
  cases hesd

/-- C3: the very first effect of every run is line 11's directory creation
(with missing parents, `exist_ok=True`), and every move effect occurs
strictly later in the trace. -/
theorem makedirs_before_first_move (home : String) (walk : List (String × List String)) :
    (programTrace home walk).head? = some (Effect.makedirs (destination_dir home) true)
    ∧ ∀ i s d, (programTrace home walk)[i]? = some (Effect.move s d) → 0 < i := by
  constructor
  · rfl
  · intro i s d h
    cases i with
    | zero => simp [programTrace] at h
    | succ n => exact Nat.succ_pos n

/-- Witness for C3: the first move of a run sits at index 1, after the
directory creation at index 0. -/
theorem makedirs_before_first_move_witness : 0 < 1 :=
  (makedirs_before_first_move "h" [("a", ["clip_play.mp4"])]).2 1 "a/clip_play.mp4"
    "h/Desktop/Filtered_Files/clip_play.mp4" (by decide)

/-- C4: flattening: every performed move sends its file to the destination
directory joined directly with the bare filename, independently of the
directory the file came from. -/
theorem flattening_dst (home : String) (walk : List (String × List String)) :
    ∀ m ∈ movesOf home walk,
      m.dst = joinPath (destination_dir home) m.file
      ∧ ∀ root2 : String, (mkMove home root2 m.file).dst = m.dst := by
  intro m hm
  have hshape := (shape_of_mem_movesOf hm).1
  have hdst : m.dst = joinPath (destination_dir home) m.file := congrArg Move.dst hshape
  exact ⟨hdst, fun root2 => by rw [hdst]; rfl⟩

/-- Witness for C4: a nested match lands directly in the destination. -/
theorem flattening_dst_witness :
    (mkMove "h" "a/b/c" "clip_play.mp4").dst
      = joinPath (destination_dir "h") "clip_play.mp4" :=
  ((flattening_dst "h" [("a/b/c", ["clip_play.mp4"])]) (mkMove "h" "a/b/c" "clip_play.mp4")
    (by decide)).1

/-- C5: the console output of a run is exactly one `Moved: <src> -> <dst>`
line per performed move, in order, followed by the single line
`Transfer complete.` and nothing else. -/
theorem console_output_shape (home : String) (walk : List (String × List String)) :
    outputOf home walk = (movesOf home walk).map moveLine ++ ["Transfer complete."]
    ∧ ∀ m : Move, moveLine m = "Moved: " ++ m.src ++ " -> " ++ m.dst := by
  refine ⟨?_, fun m => rfl⟩
  simp [outputOf, programTrace, List.filterMap_cons, List.filterMap_append,
    filterMap_printed, printedLine]

/-- C6: matching is case-insensitive in both predicates: `PLAY_video.MP4`
passes the keyword test for `play` and the suffix test for `.mp4`, both of
which compare lower-cased strings, and changing the case of a filename
never changes the decision. -/
theorem case_insensitive_match :
    matchesFile "play" file_extensions "PLAY_video.MP4" = true
    ∧ isInfixB (strLower "play") (strLower "PLAY_video.MP4") = true
    ∧ List.isSuffixOf (".mp4" : String).data (strLower "PLAY_video.MP4") = true
    ∧ matchesFile search_keyword file_extensions "PLAY_video.MP4"
        = matchesFile search_keyword file_extensions "play_video.mp4" := by decide

/-- C7: destination creation with `exist_ok=True` is idempotent: it never
errors, a second application leaves the state exactly as after the first,
and the destination is present exactly once (on duplicate-free states). -/
theorem makedirs_idempotent (st : List (List String)) (path : List String)
    (hne : path ≠ []) (hnd : st.Nodup) :
    ∃ st2, makedirs st path true = Except.ok st2
      ∧ makedirs st2 path true = Except.ok st2
      ∧ path ∈ st2 ∧ st2.Nodup ∧ st2.count path = 1 := by
  by_cases hmem : path ∈ st
  · refine ⟨st, ?_, ?_, hmem, hnd, count_eq_one_of_nodup_mem hnd hmem⟩
    · simp [makedirs, hmem]
    · simp [makedirs, hmem]
  · have hp : path ∈ (initSegs path).foldl insertDir st :=
      mem_foldl_insertDir _ _ (path_mem_initSegs hne)
    have hnd2 := nodup_foldl_insertDir (initSegs path) st hnd
    refine ⟨(initSegs path).foldl insertDir st, ?_, ?_, hp, hnd2,
      count_eq_one_of_nodup_mem hnd2 hp⟩
    · simp [makedirs, hmem]
    · simp [makedirs, hp]

/-- Witness for C7: creating `h/Desktop` twice from the empty state. -/
theorem makedirs_idempotent_witness :
    ∃ st2, makedirs [] ["h", "Desktop"] true = Except.ok st2
      ∧ makedirs st2 ["h", "Desktop"] true = Except.ok st2
      ∧ ["h", "Desktop"] ∈ st2 ∧ st2.Nodup ∧ st2.count ["h", "Desktop"] = 1 :=
  makedirs_idempotent [] ["h", "Desktop"] (by decide) (by simp)

/-- C8: every configured extension starts with a dot and is entirely
lower-case, and the four configuration values are the fixed constants of
lines 5, 8, 14 and 17 (in this embedding they are literal definitions, so
nothing can mutate them during a run). -/
theorem config_constants :
    file_extensions.all
        (fun e => e.data.head? == some '.'
          && e.data.all (fun c => Char.toLower c == c)) = true
    ∧ source_dir = "path/to/your/subdirectory"
    ∧ search_keyword = "play"
    ∧ file_extensions = [".mp4", ".avi", ".mov", ".mkv", ".flv", ".wmv"]
    ∧ ∀ home : String, destination_dir home = home ++ "/Desktop/Filtered_Files" :=
  ⟨by decide, rfl, rfl, rfl, fun home => rfl⟩

/-- C9: traversal-listing errors never abort the run: a nonexistent source
yields an empty walk, an unlistable directory yields nothing (its error is
swallowed by `os.walk` with `onerror=None`), a listable directory still
yields its own entry, and on an empty walk the run performs no move, prints
only `Transfer complete.`, and completes successfully. -/
theorem walk_errors_silent (home p n : String) (ch : List FSNode) (fs : List String) :
    osWalkTop p none = []
    ∧ osWalk p (FSNode.dir n false ch) = []
    ∧ movesOf home (osWalkTop p none) = []
    ∧ outputOf home (osWalkTop p none) = ["Transfer complete."]
    ∧ (osWalk p (FSNode.dir n true ch)).head? = some (p, fileNames ch)
    ∧ (execEffects (fun _ => false) fs (programTrace home (osWalkTop p none))).2 = true := by
  refine ⟨rfl, ?_, rfl, rfl, ?_, rfl⟩
  · simp [osWalk]
  · simp [osWalk]

/-- C10: the move decision depends only on the filename: two files with the
same name at different places in the walk are either both moved or both
kept, and the per-file decision is invariant under changing the containing
directory. -/
theorem match_independent_of_dir (home r1 r2 f : String)
    (files1 files2 : List String) (walk : List (String × List String))
    (h1 : (r1, files1) ∈ walk) (hf1 : f ∈ files1)
    (h2 : (r2, files2) ∈ walk) (hf2 : f ∈ files2) :
    (mkMove home r1 f ∈ movesOf home walk ↔ mkMove home r2 f ∈ movesOf home walk)
    ∧ ∀ ra rb : String, (processFile home ra f).isSome = (processFile home rb f).isSome := by
  constructor
  · rw [mem_movesOf_iff, mem_movesOf_iff]
    constructor
    · rintro ⟨hm, _⟩; exact ⟨hm, files2, h2, hf2⟩
    · rintro ⟨hm, _⟩; exact ⟨hm, files1, h1, hf1⟩
  · intro ra rb
    by_cases hm : matchesFile search_keyword file_extensions f = true <;>
      simp [processFile, hm]

/-- Witness for C10: the same matching name in two different directories;
membership of one move transfers to the other. -/
theorem match_independent_of_dir_witness :
    mkMove "h" "b/c" "play.mp4"
      ∈ movesOf "h" [("a", ["play.mp4"]), ("b/c", ["play.mp4"])] :=
  ((match_independent_of_dir "h" "a" "b/c" "play.mp4" ["play.mp4"] ["play.mp4"]
      [("a", ["play.mp4"]), ("b/c", ["play.mp4"])]
      (by decide) (by decide) (by decide) (by decide)).1).mp (by decide)

end BatchVideoCopy
